import Mathlib

/-!
Verification of the Stremer desktop client's progressive folder-listing
pipeline: the NDJSON listing stream consumer (APIClient.stream_files in
src/api/client.py), the background loader thread and scroll-driven
pagination (FileLoaderThread and BrowserWidget in
src/file_browser/browser_widget.py), the in-memory sort
(BrowserWidget._sort_items), and the thumbnail scheduler
(BrowserWidget._load_thumbnail_async / _start_next_thumb).
Python dictionaries with optional fields are modelled as structures of
Option-typed fields; Python exceptions are modelled as explicit result
values; the stateful thumbnail scheduler is modelled as a step function
on an explicit state record driven by event lists.
-/

namespace Stremer

/-- One directory entry as decoded from a server NDJSON line.  Fields are
optional because the Python code reads them with dict.get; a field that is
absent and a field explicitly set to None both map to none. -/
structure Item where
  name? : Option String := none
  type? : Option String := none
  size? : Option Int := none
  lastModified? : Option Int := none
  path? : Option String := none
deriving DecidableEq, Repr

/-- The heterogeneous sort key returned by the inner get_sort_key closure of
BrowserWidget._sort_items: a lowercased name string, an integer (date or
size), or a (type, lowercased name) tuple. -/
inductive SortKey
  | str (s : String)
  | int (n : Int)
  | pair (t : String) (n : String)
deriving DecidableEq, Repr

/-- ASCII lowercasing of one character, modelling what Python str.lower
does on the ASCII names this client handles. -/
def charLower (c : Char) : Char :=
  if 65 ≤ c.toNat ∧ c.toNat ≤ 90 then Char.ofNat (c.toNat + 32) else c

/-- Model of Python str.lower restricted to ASCII. -/
def pyLower (s : String) : String := String.mk (s.data.map charLower)

/-- Python string comparison compares code points left to right; a strict
prefix is smaller. -/
def charListLt : List Char → List Char → Bool
  | _, [] => false
  | [], _ :: _ => true
  | c :: cs, d :: ds =>
      if c.toNat < d.toNat then true
      else if d.toNat < c.toNat then false
      else charListLt cs ds

/-- Model of the Python strict less-than on strings. -/
def strLt (a b : String) : Bool := charListLt a.data b.data

/-- Model of the Python less-or-equal on strings: the negation of the
reversed strict comparison, as in any total order. -/
def strLe (a b : String) : Bool := !(strLt b a)

/-- Embedding of the get_sort_key closure in BrowserWidget._sort_items. -/
def getSortKey (field : String) (item : Item) : SortKey :=
  if field == "name" then .str (pyLower (item.name?.getD ""))
  else if field == "date" then .int ((item.lastModified?).getD 0)
  else if field == "size" then
    if item.type? == some "dir" then .int (-1)
    else .int ((item.size?).getD 0)
  else if field == "type" then .pair ((item.type?).getD "file") (pyLower (item.name?.getD ""))
  else .str ""

/-- Python comparison on sort keys (string order, integer order, or
lexicographic tuple order).  Keys of different shapes never meet for a
fixed sort field. -/
def sortKeyLe : SortKey → SortKey → Bool
  | .str a, .str b => strLe a b
  | .int a, .int b => decide (a ≤ b)
  | .pair t1 n1, .pair t2 n2 => strLt t1 t2 || (t1 == t2 && strLe n1 n2)
  | _, _ => false

/-- Item comparison induced by a sort field. -/
def itemLe (field : String) (a b : Item) : Bool :=
  sortKeyLe (getSortKey field a) (getSortKey field b)

/-- Embedding of BrowserWidget._sort_items: Python sorted is a stable sort
by key; reverse=True (descending) is the stable sort by the flipped
comparator.  List.mergeSort is stable, matching CPython's Timsort. -/
def sortItems (field : String) (ascending : Bool) (items : List Item) : List Item :=
  if ascending then items.mergeSort (fun a b => itemLe field a b)
  else items.mergeSort (fun a b => itemLe field b a)

/-- One line of the NDJSON response stream as seen by stream_files after
json.loads: blank lines are skipped, undecodable lines raise a swallowed
JSONDecodeError, a decoded object with an error field carries the server
error string, and any other decoded object is an item. -/
inductive LineV
  | blank
  | malformed
  | errLine (msg : String)
  | item (it : Item)
deriving DecidableEq, Repr

/-- Outcome of one invocation of the per-item callback.  stop models a
Python return value that is exactly False; go models any other return
value; exnJson models raising json.JSONDecodeError (caught by the inner
per-line handler); exn models raising any other exception (caught by the
outer handler with error set to str of the exception). -/
inductive CbRes
  | stop
  | go
  | exnJson (msg : String)
  | exn (msg : String)
deriving DecidableEq, Repr

/-- Python truthiness of the optional integer max_items argument: None and
0 are falsy, every other integer is truthy. -/
def pyTruthy : Option Int → Bool
  | none => false
  | some n => n != 0

/-- Result of a stream_files run: the returned (error, has_more) pair, plus
the list of items that were passed to the per-item callback, in order. -/
structure StreamResult where
  error : Option String
  hasMore : Bool
  delivered : List Item
deriving DecidableEq, Repr

/-- Record one more callback invocation at the front of a result's
delivered list. -/
def pushDelivered (it : Item) (r : StreamResult) : StreamResult :=
  { r with delivered := it :: r.delivered }

/-- Embedding of the line loop of APIClient.stream_files.  The cnt argument
is items_count; the callback receives the zero-based invocation index so
that stateful Python callbacks varying with call position can be
modelled.  tailExn models the response iterator raising after yielding all
its lines (caught by the outer handler); it fires only when the loop
exhausts the lines without breaking. -/
def streamLoop (cb : Option (Nat → Item → CbRes)) (maxItems : Option Int)
    (tailExn : Option String) : List LineV → Option String → Nat → StreamResult
  | [], err, _ =>
      match tailExn with
      | some m => { error := some m, hasMore := false, delivered := [] }
      | none => { error := err, hasMore := false, delivered := [] }
  | line :: rest, err, cnt =>
      match line with
      | .blank => streamLoop cb maxItems tailExn rest err cnt
      | .malformed => streamLoop cb maxItems tailExn rest err cnt
      | .errLine m => streamLoop cb maxItems tailExn rest (some m) cnt
      | .item it =>
          match cb with
          | none => streamLoop cb maxItems tailExn rest err cnt
          | some f =>
              match f cnt it with
              | .exnJson _ => pushDelivered it (streamLoop cb maxItems tailExn rest err (cnt + 1))
              | .exn m => { error := some m, hasMore := false, delivered := [it] }
              | .stop => { error := err, hasMore := true, delivered := [it] }
              | .go =>
                  if pyTruthy maxItems && decide (maxItems.getD 0 ≤ ((cnt : Int) + 1)) then
                    { error := err, hasMore := true, delivered := [it] }
                  else pushDelivered it (streamLoop cb maxItems tailExn rest err (cnt + 1))

/-- Embedding of APIClient.stream_files.  netFail models requests.get or
raise_for_status raising before any line is read; in that case no line is
consumed and the error string is returned.  The offset argument only
affects the request parameters, never the consumption loop. -/
def stream_files (lines : List LineV) (netFail tailExn : Option String)
    (cb : Option (Nat → Item → CbRes)) (maxItems : Option Int) (offset : Int) : StreamResult :=
  match netFail with
  | some m => { error := some m, hasMore := false, delivered := [] }
  | none => streamLoop cb maxItems tailExn lines none 0

/-- The limit request parameter sent by stream_files: present exactly when
max_items is truthy. -/
def streamParamsLimit (maxItems : Option Int) : Option Int :=
  if pyTruthy maxItems then maxItems else none

/-- The offset request parameter sent by stream_files: present exactly when
offset is positive. -/
def streamParamsOffset (offset : Int) : Option Int :=
  if offset > 0 then some offset else none

/-- The item payloads of a line list, in order. -/
def itemLines : List LineV → List Item
  | [] => []
  | .item it :: rest => it :: itemLines rest
  | _ :: rest => itemLines rest

/-- The last server error string carried by a line list, starting from a
previously recorded value: each error line overwrites the previous one. -/
def lastErr : List LineV → Option String → Option String
  | [], acc => acc
  | .errLine m :: rest, _ => lastErr rest (some m)
  | _ :: rest, acc => lastErr rest acc

/-- State of one FileLoaderThread: the cancel flag, the buffered batch, the
count of received items, the item cap, and the emission batch size
(10 in the source). -/
structure LoaderState where
  cancelled : Bool
  batch : List Item
  totalReceived : Nat
  limit : Nat
  batchSize : Nat
deriving DecidableEq, Repr

/-- A freshly constructed FileLoaderThread with the given limit. -/
def initLoader (limit : Nat) : LoaderState :=
  { cancelled := false, batch := [], totalReceived := 0, limit := limit, batchSize := 10 }

/-- An event seen by a FileLoaderThread: an item arriving from the stream
(its _on_item callback) or the controller invoking cancel. -/
inductive LoaderEvent
  | item (it : Item)
  | cancel
deriving DecidableEq, Repr

/-- One FileLoaderThread step: _on_item (which returns immediately when
cancelled, otherwise buffers the item and flushes a full batch through
items_received) or cancel (which sets the flag).  The second component is
the list of batches emitted by the step. -/
def loaderStep (s : LoaderState) : LoaderEvent → LoaderState × List (List Item)
  | .cancel => ({ s with cancelled := true }, [])
  | .item it =>
      if s.cancelled then (s, [])
      else
        let s1 := { s with totalReceived := s.totalReceived + 1, batch := s.batch ++ [it] }
        if s.batchSize ≤ s1.batch.length then ({ s1 with batch := [] }, [s1.batch])
        else (s1, [])

/-- Run a FileLoaderThread over a sequence of events, collecting all
emitted batches in order. -/
def loaderRunAux : LoaderState → List LoaderEvent → LoaderState × List (List Item)
  | s, [] => (s, [])
  | s, e :: es =>
      let p := loaderStep s e
      let q := loaderRunAux p.1 es
      (q.1, p.2 ++ q.2)

/-- The final _emit_batch flush performed by FileLoaderThread.run after the
stream ends: nothing is emitted when the thread was cancelled or the
buffer is empty. -/
def loaderFinish (s : LoaderState) : List (List Item) :=
  if s.cancelled then [] else if s.batch.isEmpty then [] else [s.batch]

/-- All batches a FileLoaderThread delivers to the widget over its
lifetime: the in-stream flushes followed by the final flush. -/
def loaderEmissions (s : LoaderState) (evs : List LoaderEvent) : List (List Item) :=
  (loaderRunAux s evs).2 ++ loaderFinish (loaderRunAux s evs).1

/-- The method names defined by class BrowserWidget in
src/file_browser/browser_widget.py.  The list is transcribed from the
class body; note that no def line for _load_more_items exists, although
_on_table_scroll and _on_icon_scroll both call self._load_more_items(). -/
def browserWidgetMethods : List String :=
  ["__init__", "set_view_mode", "_on_sort_changed", "_toggle_sort_order",
   "_sort_items", "_fmt_size", "load_path", "_on_items_received",
   "_on_load_complete", "_on_table_scroll", "_on_icon_scroll",
   "_on_load_error", "navigate_to", "can_go_back", "can_go_up", "go_back",
   "go_up", "_render_table", "_render_table_chunk", "_render_icons",
   "_render_icons_chunk", "_update_filter_button_state", "_selected_item",
   "_on_search", "_clear_search", "_open_context_menu",
   "_open_context_menu_icons", "_open_mini_player_for_first_audio",
   "_open_camera", "_on_double_click", "_on_icon_double_click",
   "set_api_client", "_is_video", "_is_audio", "_on_selection_changed",
   "_load_thumbnail_async", "_load_visible_thumbnails", "_start_next_thumb",
   "_apply_thumb_to_items", "_get_associated_apps", "_find_app_path",
   "_get_common_apps_for_ext", "_on_upload_clicked"]

/-- Outcome of a scroll handler invocation: returned without starting a
load, raised AttributeError on an undefined attribute, or started a new
load-more listing session with the given offset and limit. -/
inductive ScrollOutcome
  | noop
  | attrError (missing : String)
  | loadMore (offset : Nat) (limit : Nat)
deriving DecidableEq, Repr

/-- Embedding of BrowserWidget._on_table_scroll.  The float comparison
value / maximum greater than 0.8 is modelled exactly as 5 * value greater
than 4 * maximum.  Looking up self._load_more_items on an object whose
class does not define it raises AttributeError. -/
def onTableScroll (hasMore isLoading : Bool) (value maximum : Nat) : ScrollOutcome :=
  if !hasMore || isLoading then .noop
  else if 0 < maximum ∧ 4 * maximum < 5 * value then
    if "_load_more_items" ∈ browserWidgetMethods then .loadMore 0 100
    else .attrError "_load_more_items"
  else .noop

/-- Embedding of BrowserWidget._on_icon_scroll.  The def line of
_load_more_items is missing from the source, so the body that was meant to
be that method runs inline at the end of _on_icon_scroll: after the
threshold block (which itself calls the undefined self._load_more_items),
the handler unconditionally starts a new 100-item session at
offset = len(_all_loaded_items) whenever it is not loading and not
complete, regardless of scroll position. -/
def onIconScroll (hasMore isLoading loadComplete : Bool)
    (value maximum accumulated : Nat) : ScrollOutcome :=
  if hasMore ∧ ¬isLoading ∧ 0 < maximum ∧ 4 * maximum < 5 * value then
    if "_load_more_items" ∈ browserWidgetMethods then .loadMore accumulated 100
    else .attrError "_load_more_items"
  else if isLoading ∨ loadComplete then .noop
  else .loadMore accumulated 100

/-- A thumbnail request key: (path, width, height). -/
abbrev ThumbKey := String × Nat × Nat

/-- The fixed thumbnail fetch concurrency cap of
BrowserWidget._start_next_thumb. -/
def MAX_CONCURRENT : Nat := 32

/-- State of the thumbnail scheduler embedded in BrowserWidget: the
completed-pixmap cache keys, the in-flight key set, the pending queue, the
active fetch count, the keys of issued network requests not yet finished,
and the running total of network fetches issued. -/
structure ThumbState where
  cache : List ThumbKey
  inflight : List ThumbKey
  pending : List ThumbKey
  active : Nat
  fetching : List ThumbKey
  fetchCount : Nat
deriving DecidableEq, Repr

/-- The scheduler state of a freshly constructed BrowserWidget. -/
def initThumb : ThumbState :=
  { cache := [], inflight := [], pending := [], active := 0, fetching := [], fetchCount := 0 }

/-- The while loop of BrowserWidget._start_next_thumb: while the active
count is below the cap and the pending queue is nonempty, pop the queue
front, issue its network fetch, and increment the active count. -/
def startNextAux : List ThumbKey → Nat → List ThumbKey → Nat →
    List ThumbKey × Nat × List ThumbKey × Nat
  | [], active, fetching, count => ([], active, fetching, count)
  | k :: rest, active, fetching, count =>
      if active < MAX_CONCURRENT then
        startNextAux rest (active + 1) (fetching ++ [k]) (count + 1)
      else (k :: rest, active, fetching, count)

/-- Embedding of BrowserWidget._start_next_thumb. -/
def startNextThumb (s : ThumbState) : ThumbState :=
  let r := startNextAux s.pending s.active s.fetching s.fetchCount
  { s with pending := r.1, active := r.2.1, fetching := r.2.2.1, fetchCount := r.2.2.2 }

/-- Embedding of BrowserWidget._load_thumbnail_async: a cache hit applies
the cached pixmap and returns; a key already in the in-flight set is
suppressed; otherwise the key joins the in-flight set and the pending
queue (front when the item is visible, back otherwise) and the pump is
kicked. -/
def requestThumb (s : ThumbState) (key : ThumbKey) (visible : Bool) : ThumbState :=
  if key ∈ s.cache then s
  else if key ∈ s.inflight then s
  else
    startNextThumb
      { s with inflight := key :: s.inflight,
               pending := if visible then key :: s.pending else s.pending ++ [key] }

/-- Embedding of the _on_finished closure in
BrowserWidget._start_next_thumb: on success the key enters the cache; the
in-flight marker is dropped, the active count is decremented clamping at
zero (max with 0, which is Nat subtraction), and the pump is kicked
exactly once. -/
def finishThumb (s : ThumbState) (key : ThumbKey) (success : Bool) : ThumbState :=
  startNextThumb
    { s with cache := if success then key :: s.cache else s.cache,
             inflight := s.inflight.erase key,
             fetching := s.fetching.erase key,
             active := s.active - 1 }

/-- An external event driving the thumbnail scheduler: a request from the
rendering or visibility-scan code, or a network reply finishing. -/
inductive ThumbEvent
  | request (key : ThumbKey) (visible : Bool)
  | finish (key : ThumbKey) (success : Bool)
deriving DecidableEq, Repr

/-- One scheduler step.  A finish event can only fire for a request that
was actually issued to the network, hence the fetching guard. -/
def thumbStep (s : ThumbState) : ThumbEvent → ThumbState
  | .request key visible => requestThumb s key visible
  | .finish key success => if key ∈ s.fetching then finishThumb s key success else s

/-- Run the scheduler over a list of events. -/
def thumbRun (s : ThumbState) (evs : List ThumbEvent) : ThumbState :=
  evs.foldl thumbStep s

/-- Scheduler invariant: the active count is capped and tracks the issued
but unfinished fetches; the pending queue and the fetch list hold distinct
keys, are disjoint, and are both covered by the in-flight set. -/
def ThumbInv (s : ThumbState) : Prop :=
  s.active ≤ MAX_CONCURRENT ∧
  s.active = s.fetching.length ∧
  s.pending.Nodup ∧
  s.fetching.Nodup ∧
  (∀ k, k ∈ s.pending → k ∈ s.inflight) ∧
  (∀ k, k ∈ s.fetching → k ∈ s.inflight) ∧
  (∀ k, k ∈ s.pending → k ∉ s.fetching)

/-- Concrete item with name a, a 5-byte file, used by the sort examples. -/
def aFileItem : Item :=
  { name? := some "a", type? := some "file", size? := some 5 }

/-- Concrete item with name b, a directory with size None, used by the
sort examples. -/
def bDirItem : Item :=
  { name? := some "b", type? := some "dir" }

/-- Concrete item used by stream counterexamples. -/
def itemA : Item := { name? := some "a.txt", type? := some "file" }

/-- Second concrete item used by stream counterexamples. -/
def itemB : Item := { name? := some "b.txt", type? := some "file" }

/-- Thirty-three simultaneous thumbnail requests with pairwise distinct
keys, used to exercise the concurrency cap. -/
def thumbManyRequests : List ThumbEvent :=
  (List.range 33).map (fun i => ThumbEvent.request ("p", i, 64) true)

theorem itemLines_map (items : List Item) :
    itemLines (items.map LineV.item) = items := by
  induction items with
  | nil => rfl
  | cons it rest ih => simp [itemLines, ih]

theorem streamLoop_go_all (f : Nat → Item → CbRes) (mi : Option Int) (te : Option String)
    (hmax : pyTruthy mi = false) (hcb : ∀ n it, f n it = CbRes.go) :
    ∀ (lines : List LineV) (err : Option String) (cnt : Nat),
      streamLoop (some f) mi te lines err cnt =
        { error := match te with | some m => some m | none => lastErr lines err,
          hasMore := false, delivered := itemLines lines } := by
  intro lines
  induction lines with
  | nil => intro err cnt; cases te <;> simp [streamLoop, lastErr, itemLines]
  | cons l rest ih =>
      intro err cnt
      cases l with
      | blank => rw [streamLoop]; rw [ih]; rfl
      | malformed => rw [streamLoop]; rw [ih]; rfl
      | errLine m => rw [streamLoop]; rw [ih]; rfl
      | item it =>
          rw [streamLoop]
          simp only [hcb, hmax, Bool.false_and, Bool.false_eq_true, if_false, ih,
            pushDelivered]
          rfl

theorem streamLoop_no_stop (f : Nat → Item → CbRes) (mi : Option Int) (te : Option String)
    (hmax : pyTruthy mi = false) (hcb : ∀ n it, f n it ≠ CbRes.stop) :
    ∀ (lines : List LineV) (err : Option String) (cnt : Nat),
      (streamLoop (some f) mi te lines err cnt).hasMore = false := by
  intro lines
  induction lines with
  | nil => intro err cnt; cases te <;> simp [streamLoop]
  | cons l rest ih =>
      intro err cnt
      cases l with
      | blank => rw [streamLoop]; exact ih err cnt
      | malformed => rw [streamLoop]; exact ih err cnt
      | errLine m => rw [streamLoop]; exact ih (some m) cnt
      | item it =>
          rw [streamLoop]
          cases h : f cnt it with
          | stop => exact absurd h (hcb cnt it)
          | go =>
              simp only [hmax, Bool.false_and, Bool.false_eq_true, if_false, pushDelivered]
              exact ih err (cnt + 1)
          | exnJson m => simpa [pushDelivered] using ih err (cnt + 1)
          | exn m => rfl

theorem capCond_true (L cnt : Nat) (hL : 0 < L) (hc : L ≤ cnt + 1) :
    (pyTruthy (some (L : Int)) && decide (Option.getD (some (L : Int)) 0 ≤ ((cnt : Int) + 1)))
      = true := by
  simp [pyTruthy]
  omega

theorem capCond_false (L cnt : Nat) (hc : cnt + 1 < L) :
    (pyTruthy (some (L : Int)) && decide (Option.getD (some (L : Int)) 0 ≤ ((cnt : Int) + 1)))
      = false := by
  simp [pyTruthy]
  omega

theorem streamLoop_cap_len (f : Nat → Item → CbRes) (L : Nat) (te : Option String)
    (hcb : ∀ n it, f n it = CbRes.stop ∨ f n it = CbRes.go) :
    ∀ (lines : List LineV) (err : Option String) (cnt : Nat), cnt < L →
      (streamLoop (some f) (some (L : Int)) te lines err cnt).delivered.length + cnt ≤ L := by
  intro lines
  induction lines with
  | nil =>
      intro err cnt h
      cases te <;> simp [streamLoop] <;> omega
  | cons l rest ih =>
      intro err cnt h
      cases l with
      | blank => rw [streamLoop]; exact ih err cnt h
      | malformed => rw [streamLoop]; exact ih err cnt h
      | errLine m => rw [streamLoop]; exact ih (some m) cnt h
      | item it =>
          rcases hcb cnt it with hf | hf
          · simp only [streamLoop, hf, List.length_cons, List.length_nil]
            omega
          · by_cases hc : L ≤ cnt + 1
            · simp only [streamLoop, hf, capCond_true L cnt (by omega) hc, if_true,
                List.length_cons, List.length_nil]
              omega
            · simp only [streamLoop, hf, capCond_false L cnt (by omega),
                Bool.false_eq_true, if_false, pushDelivered, List.length_cons]
              have := ih err (cnt + 1) (by omega)
              omega

theorem streamLoop_cap_hasMore (f : Nat → Item → CbRes) (L : Nat) (te : Option String)
    (hcb : ∀ n it, f n it = CbRes.stop ∨ f n it = CbRes.go) :
    ∀ (lines : List LineV) (err : Option String) (cnt : Nat), cnt < L →
      L ≤ cnt + (itemLines lines).length →
      (streamLoop (some f) (some (L : Int)) te lines err cnt).hasMore = true := by
  intro lines
  induction lines with
  | nil =>
      intro err cnt h hlen
      simp [itemLines] at hlen
      omega
  | cons l rest ih =>
      intro err cnt h hlen
      cases l with
      | blank => rw [streamLoop]; exact ih err cnt h (by simpa [itemLines] using hlen)
      | malformed => rw [streamLoop]; exact ih err cnt h (by simpa [itemLines] using hlen)
      | errLine m => rw [streamLoop]; exact ih (some m) cnt h (by simpa [itemLines] using hlen)
      | item it =>
          rcases hcb cnt it with hf | hf
          · simp only [streamLoop, hf]
          · by_cases hc : L ≤ cnt + 1
            · simp only [streamLoop, hf, capCond_true L cnt (by omega) hc, if_true]
            · have hlen' : L ≤ (cnt + 1) + (itemLines rest).length := by
                simp only [itemLines, List.length_cons] at hlen
                omega
              simp only [streamLoop, hf, capCond_false L cnt (by omega),
                Bool.false_eq_true, if_false, pushDelivered]
              exact ih err (cnt + 1) (by omega) hlen'

theorem streamLoop_natural (f : Nat → Item → CbRes) (L : Nat)
    (hcb : ∀ n it, f n it = CbRes.go) :
    ∀ (lines : List LineV) (err : Option String) (cnt : Nat),
      cnt + (itemLines lines).length < L →
      streamLoop (some f) (some (L : Int)) none lines err cnt =
        { error := lastErr lines err, hasMore := false, delivered := itemLines lines } := by
  intro lines
  induction lines with
  | nil => intro err cnt h; simp [streamLoop, lastErr, itemLines]
  | cons l rest ih =>
      intro err cnt h
      cases l with
      | blank =>
          rw [streamLoop]; rw [ih err cnt (by simpa [itemLines] using h)]; rfl
      | malformed =>
          rw [streamLoop]; rw [ih err cnt (by simpa [itemLines] using h)]; rfl
      | errLine m =>
          rw [streamLoop]; rw [ih (some m) cnt (by simpa [itemLines] using h)]; rfl
      | item it =>
          have hlt : cnt + 1 + (itemLines rest).length < L := by
            simp only [itemLines, List.length_cons] at h
            omega
          simp only [streamLoop, hcb, capCond_false L cnt (by omega),
            Bool.false_eq_true, if_false, pushDelivered, ih err (cnt + 1) hlt]
          rfl

theorem streamLoop_delivered_sub (cbo : Option (Nat → Item → CbRes)) (mi : Option Int)
    (te : Option String) :
    ∀ (lines : List LineV) (err : Option String) (cnt : Nat),
      ∀ it ∈ (streamLoop cbo mi te lines err cnt).delivered, it ∈ itemLines lines := by
  intro lines
  induction lines with
  | nil =>
      intro err cnt it hmem
      cases te <;> simp [streamLoop] at hmem
  | cons l rest ih =>
      intro err cnt it hmem
      cases l with
      | blank => rw [streamLoop] at hmem; exact ih err cnt it hmem
      | malformed => rw [streamLoop] at hmem; exact ih err cnt it hmem
      | errLine m => rw [streamLoop] at hmem; exact ih (some m) cnt it hmem
      | item i =>
          cases cbo with
          | none =>
              rw [streamLoop] at hmem
              have := ih err cnt it hmem
              simp [itemLines, this]
          | some f =>
              rw [streamLoop] at hmem
              cases h : f cnt i with
              | stop =>
                  rw [h] at hmem
                  simp at hmem
                  simp [itemLines, hmem]
              | go =>
                  rw [h] at hmem
                  by_cases hc : (pyTruthy mi && decide (mi.getD 0 ≤ ((cnt : Int) + 1))) = true
                  · rw [if_pos hc] at hmem
                    simp at hmem
                    simp [itemLines, hmem]
                  · rw [if_neg hc] at hmem
                    simp only [pushDelivered, List.mem_cons] at hmem
                    rcases hmem with rfl | hmem
                    · simp [itemLines]
                    · simp [itemLines, ih err (cnt + 1) it hmem]
              | exnJson m =>
                  rw [h] at hmem
                  simp only [pushDelivered, List.mem_cons] at hmem
                  rcases hmem with rfl | hmem
                  · simp [itemLines]
                  · simp [itemLines, ih err (cnt + 1) it hmem]
              | exn m =>
                  rw [h] at hmem
                  simp at hmem
                  simp [itemLines, hmem]

theorem streamLoop_exn_first (f : Nat → Item → CbRes) (mi : Option Int) (te : Option String)
    (it : Item) (m : String) (hf : f 0 it = CbRes.exn m) :
    ∀ (pre : List LineV), itemLines pre = [] → ∀ (rest : List LineV) (err : Option String),
      streamLoop (some f) mi te (pre ++ LineV.item it :: rest) err 0 =
        { error := some m, hasMore := false, delivered := [it] } := by
  intro pre
  induction pre with
  | nil =>
      intro _ rest err
      simp only [List.nil_append, streamLoop, hf]
  | cons l pre' ih =>
      intro hpre rest err
      cases l with
      | blank => rw [List.cons_append, streamLoop]; exact ih (by simpa [itemLines] using hpre) rest err
      | malformed => rw [List.cons_append, streamLoop]; exact ih (by simpa [itemLines] using hpre) rest err
      | errLine m' => rw [List.cons_append, streamLoop]; exact ih (by simpa [itemLines] using hpre) rest (some m')
      | item i => simp [itemLines] at hpre

theorem streamLoop_exnJson_all (f : Nat → Item → CbRes) (mi : Option Int)
    (hcb : ∀ n it, ∃ m, f n it = CbRes.exnJson m) :
    ∀ (lines : List LineV) (err : Option String) (cnt : Nat),
      streamLoop (some f) mi none lines err cnt =
        { error := lastErr lines err, hasMore := false, delivered := itemLines lines } := by
  intro lines
  induction lines with
  | nil => intro err cnt; simp [streamLoop, lastErr, itemLines]
  | cons l rest ih =>
      intro err cnt
      cases l with
      | blank => rw [streamLoop]; rw [ih]; rfl
      | malformed => rw [streamLoop]; rw [ih]; rfl
      | errLine m => rw [streamLoop]; rw [ih]; rfl
      | item it =>
          obtain ⟨m, hm⟩ := hcb cnt it
          rw [streamLoop, hm]
          simp only [pushDelivered, ih err (cnt + 1)]
          rfl

/-- Helper equation: stream_files unfolds to its loop when the connection
succeeds. -/
theorem stream_files_eq_loop (lines : List LineV) (te : Option String)
    (cbo : Option (Nat → Item → CbRes)) (mi : Option Int) (off : Int) :
    stream_files lines none te cbo mi off = streamLoop cbo mi te lines none 0 := rfl

/-- C1: for every offset, every limit L of at least 1, and every stream of
M well-formed item lines with M greater than L, stream_files delivers at
most L items to the per-item callback and returns has_more true; and when
the stream is exhausted naturally before L items arrive and the callback
never returns False, it returns has_more false.  The callback is assumed
to return normally (exceptions are claim C9's subject). -/
theorem stream_files_cap (off : Int) (L : Nat) (f : Nat → Item → CbRes)
    (hL : 1 ≤ L) (hcb : ∀ n it, f n it = CbRes.stop ∨ f n it = CbRes.go) :
    (∀ items : List Item, L < items.length →
      (stream_files (items.map LineV.item) none none (some f) (some (L : Int)) off).delivered.length ≤ L ∧
      (stream_files (items.map LineV.item) none none (some f) (some (L : Int)) off).hasMore = true) ∧
    (∀ items : List Item, items.length < L → (∀ n it, f n it = CbRes.go) →
      (stream_files (items.map LineV.item) none none (some f) (some (L : Int)) off).hasMore = false ∧
      (stream_files (items.map LineV.item) none none (some f) (some (L : Int)) off).delivered = items) := by
  constructor
  · intro items hlen
    rw [stream_files_eq_loop]
    constructor
    · have := streamLoop_cap_len f L none hcb (items.map LineV.item) none 0 (by omega)
      omega
    · refine streamLoop_cap_hasMore f L none hcb (items.map LineV.item) none 0 (by omega) ?_
      rw [itemLines_map]
      omega
  · intro items hlen hgo
    rw [stream_files_eq_loop]
    rw [streamLoop_natural f L hgo (items.map LineV.item) none 0 (by rw [itemLines_map]; omega)]
    exact ⟨rfl, itemLines_map items⟩

/-- C1 witness: limit 1 on a two-item stream delivers at most one item and
reports has_more true. -/
theorem stream_files_cap_witness :
    (stream_files ([itemA, itemB].map LineV.item) none none
      (some (fun _ _ => CbRes.go)) (some ((1 : Nat) : Int)) 0).delivered.length ≤ 1 ∧
    (stream_files ([itemA, itemB].map LineV.item) none none
      (some (fun _ _ => CbRes.go)) (some ((1 : Nat) : Int)) 0).hasMore = true :=
  (stream_files_cap 0 1 (fun _ _ => CbRes.go) (by decide)
    (fun _ _ => Or.inr rfl)).1 [itemA, itemB] (by decide)

/-- C2 counterexample: an error line is not terminal for the listing
session.  On the stream consisting of an error line followed by an item
line, stream_files surfaces the error string, yet the item on the line
after the error line is still delivered to the callback, contradicting
the claim that no items from lines after the error line reach the
callback. -/
theorem stream_error_line_counterexample :
    (stream_files [LineV.errLine "boom", LineV.item itemA] none none
      (some (fun _ _ => CbRes.go)) none 0).error = some "boom" ∧
    itemA ∈ (stream_files [LineV.errLine "boom", LineV.item itemA] none none
      (some (fun _ _ => CbRes.go)) none 0).delivered := by
  constructor
  · rfl
  · simp [stream_files, streamLoop, pyTruthy, pushDelivered]

/-- C2 amended: a line containing an error field has its error string
recorded and surfaced in the returned pair (the last error line wins) and
the error line itself is never passed to the per-item callback, but the
error line is not terminal: streaming continues and items on lines after
the error line are still delivered to the callback. -/
theorem stream_error_line_behavior :
    (∀ (lines : List LineV) (cbo : Option (Nat → Item → CbRes)) (mi : Option Int)
       (nf te : Option String) (off : Int),
       ∀ it ∈ (stream_files lines nf te cbo mi off).delivered, it ∈ itemLines lines) ∧
    (∀ (lines : List LineV) (f : Nat → Item → CbRes) (off : Int),
       (∀ n it, f n it = CbRes.go) →
       stream_files lines none none (some f) none off =
         { error := lastErr lines none, hasMore := false, delivered := itemLines lines }) := by
  constructor
  · intro lines cbo mi nf te off it hmem
    cases nf with
    | some m => simp [stream_files] at hmem
    | none =>
        rw [stream_files_eq_loop] at hmem
        exact streamLoop_delivered_sub cbo mi te lines none 0 it hmem
  · intro lines f off hgo
    rw [stream_files_eq_loop]
    exact streamLoop_go_all f none none rfl hgo lines none 0

/-- C2 amended witness: on a stream with an error line followed by an item
line, the error is surfaced, the delivered items are exactly the item
payloads, and every delivered item is an item-line payload. -/
theorem stream_error_line_behavior_witness :
    itemA ∈ itemLines [LineV.errLine "e", LineV.item itemA] ∧
    stream_files [LineV.errLine "boom", LineV.item itemA] none none
      (some (fun _ _ => CbRes.go)) none 0 =
      { error := some "boom", hasMore := false, delivered := [itemA] } :=
  ⟨stream_error_line_behavior.1 [LineV.errLine "e", LineV.item itemA]
      (some (fun _ _ => CbRes.go)) none none none 0 itemA
      (by simp [stream_files, streamLoop, pyTruthy, pushDelivered]),
   stream_error_line_behavior.2 [LineV.errLine "boom", LineV.item itemA]
      (fun _ _ => CbRes.go) 0 (fun _ _ => rfl)⟩

/-- C9 counterexample: an exception raised by the callback does not always
terminate the stream nor end up in the returned error.  A callback raising
json.JSONDecodeError is swallowed by the per-line handler: the returned
error is none, streaming continues, and the second item is still
delivered. -/
theorem stream_cb_exn_counterexample :
    stream_files [LineV.item itemA, LineV.item itemB] none none
      (some (fun _ _ => CbRes.exnJson "callback boom")) none 0 =
      { error := none, hasMore := false, delivered := [itemA, itemB] } := rfl

/-- C9 amended: stream_files always returns an (error, has_more) pair and
never propagates an exception; a pre-stream network failure and any
exception other than json.JSONDecodeError raised during the loop terminate
the stream with error set to the exception's string form and has_more
false (its value at that moment); but a json.JSONDecodeError raised while
handling a line (by the decoder or by the callback itself) is swallowed
and streaming continues. -/
theorem stream_files_exception_behavior :
    (∀ (lines : List LineV) (te : Option String) (cbo : Option (Nat → Item → CbRes))
       (mi : Option Int) (off : Int) (m : String),
       stream_files lines (some m) te cbo mi off =
         { error := some m, hasMore := false, delivered := [] }) ∧
    (∀ (pre rest : List LineV) (it : Item) (m : String) (f : Nat → Item → CbRes)
       (mi : Option Int) (te : Option String) (off : Int),
       itemLines pre = [] → f 0 it = CbRes.exn m →
       stream_files (pre ++ LineV.item it :: rest) none te (some f) mi off =
         { error := some m, hasMore := false, delivered := [it] }) ∧
    (∀ (lines : List LineV) (f : Nat → Item → CbRes) (mi : Option Int) (off : Int),
       (∀ n it, ∃ m, f n it = CbRes.exnJson m) →
       stream_files lines none none (some f) mi off =
         { error := lastErr lines none, hasMore := false, delivered := itemLines lines }) := by
  refine ⟨fun lines te cbo mi off m => rfl, ?_, ?_⟩
  · intro pre rest it m f mi te off hpre hf
    rw [stream_files_eq_loop]
    exact streamLoop_exn_first f mi te it m hf pre hpre rest none
  · intro lines f mi off hcb
    rw [stream_files_eq_loop]
    exact streamLoop_exnJson_all f mi hcb lines none 0

/-- C9 amended witness: a network failure is surfaced; a callback raising a
non-JSONDecodeError exception on the first item terminates the stream with
that message; a callback raising JSONDecodeError is swallowed and both
items are delivered. -/
theorem stream_files_exception_behavior_witness :
    stream_files [LineV.item itemA] (some "net down") none none none 0 =
      { error := some "net down", hasMore := false, delivered := [] } ∧
    stream_files ([LineV.blank] ++ LineV.item itemA :: [LineV.item itemB]) none none
      (some (fun _ _ => CbRes.exn "cb boom")) none 0 =
      { error := some "cb boom", hasMore := false, delivered := [itemA] } ∧
    stream_files [LineV.item itemA, LineV.item itemB] none none
      (some (fun _ _ => CbRes.exnJson "json boom")) none 0 =
      { error := lastErr [LineV.item itemA, LineV.item itemB] none, hasMore := false,
        delivered := itemLines [LineV.item itemA, LineV.item itemB] } :=
  ⟨stream_files_exception_behavior.1 [LineV.item itemA] none none none 0 "net down",
   stream_files_exception_behavior.2.1 [LineV.blank] [LineV.item itemB] itemA "cb boom"
      (fun _ _ => CbRes.exn "cb boom") none none 0 rfl rfl,
   stream_files_exception_behavior.2.2 [LineV.item itemA, LineV.item itemB]
      (fun _ _ => CbRes.exnJson "json boom") none 0
      (fun _ _ => ⟨"json boom", rfl⟩)⟩

/-- C10: with max_items None or 0 no item cap is applied: no limit request
parameter is sent, every decoded item line is delivered to the callback
until the stream ends (when the callback keeps returning a non-False
value), and has_more can become true only through the callback returning
False. -/
theorem stream_files_no_cap (mi : Option Int) (hmi : mi = none ∨ mi = some 0) :
    streamParamsLimit mi = none ∧
    (∀ (lines : List LineV) (f : Nat → Item → CbRes) (off : Int) (te : Option String),
       (∀ n it, f n it = CbRes.go) →
       stream_files lines none te (some f) mi off =
         { error := match te with | some m => some m | none => lastErr lines none,
           hasMore := false, delivered := itemLines lines }) ∧
    (∀ (lines : List LineV) (f : Nat → Item → CbRes) (off : Int) (nf te : Option String),
       (∀ n it, f n it ≠ CbRes.stop) →
       (stream_files lines nf te (some f) mi off).hasMore = false) := by
  have hmax : pyTruthy mi = false := by
    rcases hmi with rfl | rfl <;> rfl
  refine ⟨?_, ?_, ?_⟩
  · rw [streamParamsLimit, hmax]
    rfl
  · intro lines f off te hgo
    rw [stream_files_eq_loop]
    exact streamLoop_go_all f mi te hmax hgo lines none 0
  · intro lines f off nf te hns
    cases nf with
    | some m => rfl
    | none =>
        rw [stream_files_eq_loop]
        exact streamLoop_no_stop f mi te hmax hns lines none 0

/-- C10 witness: with max_items None, no limit parameter is sent, a stream
of two items is fully delivered with has_more false, and a never-stopping
callback yields has_more false. -/
theorem stream_files_no_cap_witness :
    streamParamsLimit none = none ∧
    stream_files [LineV.item itemA, LineV.item itemB] none none
      (some (fun _ _ => CbRes.go)) none 0 =
      { error := none, hasMore := false, delivered := [itemA, itemB] } ∧
    (stream_files [LineV.item itemA] none none
      (some (fun _ _ => CbRes.go)) none 0).hasMore = false :=
  ⟨(stream_files_no_cap none (Or.inl rfl)).1,
   (stream_files_no_cap none (Or.inl rfl)).2.1 [LineV.item itemA, LineV.item itemB]
      (fun _ _ => CbRes.go) 0 none (fun _ _ => rfl),
   (stream_files_no_cap none (Or.inl rfl)).2.2 [LineV.item itemA]
      (fun _ _ => CbRes.go) 0 none none (fun _ _ h => CbRes.noConfusion h)⟩

theorem loaderRunAux_cancelled (evs : List LoaderEvent) :
    ∀ s : LoaderState, s.cancelled = true →
      (loaderRunAux s evs).2 = [] ∧ (loaderRunAux s evs).1.cancelled = true := by
  induction evs with
  | nil => intro s hs; exact ⟨rfl, hs⟩
  | cons e es ih =>
      intro s hs
      cases e with
      | cancel =>
          have := ih { s with cancelled := true } rfl
          simp only [loaderRunAux, loaderStep]
          simpa using this
      | item it =>
          simp only [loaderRunAux, loaderStep, hs, if_true]
          simpa using ih s hs

theorem loaderRunAux_append (pre post : List LoaderEvent) :
    ∀ s : LoaderState,
      loaderRunAux s (pre ++ post) =
        ((loaderRunAux (loaderRunAux s pre).1 post).1,
         (loaderRunAux s pre).2 ++ (loaderRunAux (loaderRunAux s pre).1 post).2) := by
  induction pre with
  | nil => intro s; simp [loaderRunAux]
  | cons e es ih =>
      intro s
      simp only [List.cons_append, loaderRunAux, List.append_eq, ih (loaderStep s e).1,
        List.append_assoc]

theorem loaderRunAux_items (evs : List LoaderEvent) :
    ∀ (s : LoaderState) (b : List Item) (it : Item),
      b ∈ (loaderRunAux s evs).2 → it ∈ b →
      it ∈ s.batch ∨ LoaderEvent.item it ∈ evs := by
  induction evs with
  | nil => intro s b it hb; simp [loaderRunAux] at hb
  | cons e es ih =>
      intro s b it hb hit
      simp only [loaderRunAux, List.mem_append] at hb
      cases e with
      | cancel =>
          rcases hb with hb | hb
          · simp [loaderStep] at hb
          · rcases ih _ b it hb hit with h | h
            · exact Or.inl h
            · exact Or.inr (by simp [h])
      | item i =>
          cases hs : s.cancelled with
          | true =>
              simp only [loaderStep, hs, if_true] at hb
              rcases hb with hb | hb
              · simp at hb
              · rcases ih s b it hb hit with h | h
                · exact Or.inl h
                · exact Or.inr (by simp [h])
          | false =>
              by_cases hfl : s.batchSize ≤ s.batch.length + 1
              · simp only [loaderStep, hs, Bool.false_eq_true, if_false,
                  List.length_append, List.length_cons, List.length_nil, hfl, if_true] at hb
                rcases hb with hb | hb
                · simp only [List.mem_singleton] at hb
                  subst hb
                  rcases List.mem_append.mp hit with h | h
                  · exact Or.inl h
                  · simp only [List.mem_singleton] at h
                    subst h
                    exact Or.inr (by simp)
                · rcases ih _ b it hb hit with h | h
                  · simp at h
                  · exact Or.inr (by simp [h])
              · simp only [loaderStep, hs, Bool.false_eq_true, if_false,
                  List.length_append, List.length_cons, List.length_nil, hfl, if_false] at hb
                rcases hb with hb | hb
                · simp at hb
                · rcases ih _ b it hb hit with h | h
                  · simp only [List.mem_append, List.mem_singleton] at h
                    rcases h with h | h
                    · exact Or.inl h
                    · subst h
                      exact Or.inr (by simp)
                  · exact Or.inr (by simp [h])

/-- C4: once cancel is invoked on a listing session, no batch emitted
after the cancellation point is ever delivered: the batches a
FileLoaderThread delivers over its whole lifetime (including the final
flush in run) are exactly those emitted before the cancel event, and every
item inside any delivered batch arrived before the cancel.  Items of a
batch arriving post-cancellation are dropped silently; batches emitted
before cancellation remain. -/
theorem loader_cancel_drops (limit : Nat) (pre post : List LoaderEvent) :
    loaderEmissions (initLoader limit) (pre ++ LoaderEvent.cancel :: post) =
      (loaderRunAux (initLoader limit) pre).2 ∧
    (∀ b ∈ loaderEmissions (initLoader limit) (pre ++ LoaderEvent.cancel :: post),
       ∀ it ∈ b, LoaderEvent.item it ∈ pre) := by
  have hstep : (loaderStep (loaderRunAux (initLoader limit) pre).1 LoaderEvent.cancel).1.cancelled
      = true := rfl
  have hcanc := loaderRunAux_cancelled post
      (loaderStep (loaderRunAux (initLoader limit) pre).1 LoaderEvent.cancel).1 hstep
  have hrun : loaderRunAux (initLoader limit) (pre ++ LoaderEvent.cancel :: post) =
      ((loaderRunAux (loaderStep (loaderRunAux (initLoader limit) pre).1 LoaderEvent.cancel).1 post).1,
       (loaderRunAux (initLoader limit) pre).2 ++
         ((loaderStep (loaderRunAux (initLoader limit) pre).1 LoaderEvent.cancel).2 ++
          (loaderRunAux (loaderStep (loaderRunAux (initLoader limit) pre).1 LoaderEvent.cancel).1 post).2)) := by
    rw [loaderRunAux_append pre (LoaderEvent.cancel :: post) (initLoader limit)]
    simp [loaderRunAux]
  have hemeq : loaderEmissions (initLoader limit) (pre ++ LoaderEvent.cancel :: post) =
      (loaderRunAux (initLoader limit) pre).2 := by
    rw [loaderEmissions, hrun]
    have hfin : loaderFinish (loaderRunAux (loaderStep (loaderRunAux (initLoader limit) pre).1
        LoaderEvent.cancel).1 post).1 = [] := by
      rw [loaderFinish, hcanc.2]
      rfl
    simp only [hcanc.1, hfin]
    simp [loaderStep]
  refine ⟨hemeq, ?_⟩
  intro b hb it hit
  rw [hemeq] at hb
  rcases loaderRunAux_items pre (initLoader limit) b it hb hit with h | h
  · simp [initLoader] at h
  · exact h

/-- C4 witness: ten items followed by cancel and two post-cancel items
deliver exactly one batch of the first ten items, and the witnessed batch
members all arrived before the cancel. -/
theorem loader_cancel_drops_witness :
    loaderEmissions (initLoader 100)
      (List.replicate 10 (LoaderEvent.item itemA) ++ LoaderEvent.cancel ::
        [LoaderEvent.item itemB, LoaderEvent.item itemB]) =
      (loaderRunAux (initLoader 100) (List.replicate 10 (LoaderEvent.item itemA))).2 ∧
    LoaderEvent.item itemA ∈ List.replicate 10 (LoaderEvent.item itemA) :=
  ⟨(loader_cancel_drops 100 (List.replicate 10 (LoaderEvent.item itemA))
      [LoaderEvent.item itemB, LoaderEvent.item itemB]).1,
   (loader_cancel_drops 100 (List.replicate 10 (LoaderEvent.item itemA))
      [LoaderEvent.item itemB, LoaderEvent.item itemB]).2
      (List.replicate 10 itemA) (by decide) itemA (by decide)⟩

theorem startNextAux_eq :
    ∀ (pending : List ThumbKey) (active : Nat) (fetching : List ThumbKey) (count : Nat),
      startNextAux pending active fetching count =
        (pending.drop (min (MAX_CONCURRENT - active) pending.length),
         active + min (MAX_CONCURRENT - active) pending.length,
         fetching ++ pending.take (min (MAX_CONCURRENT - active) pending.length),
         count + min (MAX_CONCURRENT - active) pending.length) := by
  intro pending
  induction pending with
  | nil => intro active fetching count; simp [startNextAux]
  | cons k rest ih =>
      intro active fetching count
      by_cases h : active < MAX_CONCURRENT
      · rw [startNextAux, if_pos h, ih (active + 1) (fetching ++ [k]) (count + 1)]
        have ht : min (MAX_CONCURRENT - active) (k :: rest).length
            = min (MAX_CONCURRENT - (active + 1)) rest.length + 1 := by
          simp only [List.length_cons]
          omega
        rw [ht]
        simp only [List.drop_succ_cons, List.take_succ_cons, List.append_assoc,
          List.singleton_append, Prod.mk.injEq]
        exact ⟨by trivial, by omega, by trivial, by omega⟩
      · rw [startNextAux, if_neg h]
        have h0 : MAX_CONCURRENT - active = 0 := by omega
        simp [h0]

theorem startNextThumb_fields (s : ThumbState) :
    startNextThumb s = { s with
      pending := s.pending.drop (min (MAX_CONCURRENT - s.active) s.pending.length),
      active := s.active + min (MAX_CONCURRENT - s.active) s.pending.length,
      fetching := s.fetching ++ s.pending.take (min (MAX_CONCURRENT - s.active) s.pending.length),
      fetchCount := s.fetchCount + min (MAX_CONCURRENT - s.active) s.pending.length } := by
  unfold startNextThumb
  rw [startNextAux_eq]

theorem startNextThumb_at_cap (s : ThumbState) (h : MAX_CONCURRENT ≤ s.active) :
    startNextThumb s = s := by
  have h0 : MAX_CONCURRENT - s.active = 0 := by omega
  rw [startNextThumb_fields, h0]
  simp

theorem thumbInv_startNext (s : ThumbState) (h : ThumbInv s) :
    ThumbInv (startNextThumb s) := by
  obtain ⟨h1, h2, h3, h4, h5, h6, h7⟩ := h
  rw [startNextThumb_fields]
  have htake : ∀ k, k ∈ s.pending.take (min (MAX_CONCURRENT - s.active) s.pending.length) →
      k ∈ s.pending := fun k hk => List.mem_of_mem_take hk
  have hdrop : ∀ k, k ∈ s.pending.drop (min (MAX_CONCURRENT - s.active) s.pending.length) →
      k ∈ s.pending := fun k hk => List.mem_of_mem_drop hk
  have hdisj : List.Disjoint
      (s.pending.take (min (MAX_CONCURRENT - s.active) s.pending.length))
      (s.pending.drop (min (MAX_CONCURRENT - s.active) s.pending.length)) := by
    have := List.take_append_drop (min (MAX_CONCURRENT - s.active) s.pending.length) s.pending
    have hnd : (s.pending.take (min (MAX_CONCURRENT - s.active) s.pending.length) ++
        s.pending.drop (min (MAX_CONCURRENT - s.active) s.pending.length)).Nodup := by
      rw [this]; exact h3
    exact (List.nodup_append.mp hnd).2.2
  refine ⟨?_, ?_, ?_, ?_, ?_, ?_, ?_⟩
  · simp only []
    have := Nat.min_le_left (MAX_CONCURRENT - s.active) s.pending.length
    omega
  · simp only [List.length_append, List.length_take]
    have := Nat.min_le_right (MAX_CONCURRENT - s.active) s.pending.length
    omega
  · exact List.Nodup.sublist (List.drop_sublist _ _) h3
  · rw [List.nodup_append]
    refine ⟨h4, List.Nodup.sublist (List.take_sublist _ _) h3, ?_⟩
    intro k hk hk'
    exact h7 k (htake k hk') hk
  · intro k hk
    exact h5 k (hdrop k hk)
  · intro k hk
    rcases List.mem_append.mp hk with hk | hk
    · exact h6 k hk
    · exact h5 k (htake k hk)
  · intro k hk hk'
    rcases List.mem_append.mp hk' with hk' | hk'
    · exact h7 k (hdrop k hk) hk'
    · exact hdisj hk' hk

theorem thumbInv_request (s : ThumbState) (key : ThumbKey) (visible : Bool)
    (h : ThumbInv s) : ThumbInv (requestThumb s key visible) := by
  obtain ⟨h1, h2, h3, h4, h5, h6, h7⟩ := h
  rw [requestThumb]
  by_cases hc : key ∈ s.cache
  · rw [if_pos hc]; exact ⟨h1, h2, h3, h4, h5, h6, h7⟩
  · rw [if_neg hc]
    by_cases hi : key ∈ s.inflight
    · rw [if_pos hi]; exact ⟨h1, h2, h3, h4, h5, h6, h7⟩
    · rw [if_neg hi]
      apply thumbInv_startNext
      have hkp : key ∉ s.pending := fun hk => hi (h5 key hk)
      have hkf : key ∉ s.fetching := fun hk => hi (h6 key hk)
      refine ⟨h1, h2, ?_, h4, ?_, ?_, ?_⟩
      · cases visible with
        | true => simpa using ⟨hkp, h3⟩
        | false =>
            simp only [Bool.false_eq_true, if_false]
            rw [List.nodup_append]
            exact ⟨h3, List.nodup_singleton key, fun a ha ha' => by
              simp only [List.mem_singleton] at ha'
              exact hkp (ha' ▸ ha)⟩
      · intro k hk
        cases visible with
        | true =>
            simp only [if_true, List.mem_cons] at hk
            rcases hk with rfl | hk
            · exact List.mem_cons_self k s.inflight
            · exact List.mem_cons_of_mem key (h5 k hk)
        | false =>
            simp only [Bool.false_eq_true, if_false, List.mem_append,
              List.mem_singleton] at hk
            rcases hk with hk | rfl
            · exact List.mem_cons_of_mem key (h5 k hk)
            · exact List.mem_cons_self k s.inflight
      · intro k hk
        exact List.mem_cons_of_mem key (h6 k hk)
      · intro k hk hk'
        cases visible with
        | true =>
            simp only [if_true, List.mem_cons] at hk
            rcases hk with rfl | hk
            · exact hkf hk'
            · exact h7 k hk hk'
        | false =>
            simp only [Bool.false_eq_true, if_false, List.mem_append,
              List.mem_singleton] at hk
            rcases hk with hk | rfl
            · exact h7 k hk hk'
            · exact hkf hk'

theorem thumbInv_finish (s : ThumbState) (key : ThumbKey) (success : Bool)
    (h : ThumbInv s) (hk : key ∈ s.fetching) :
    ThumbInv (finishThumb s key success) := by
  obtain ⟨h1, h2, h3, h4, h5, h6, h7⟩ := h
  rw [finishThumb]
  apply thumbInv_startNext
  have hklen := List.length_erase_of_mem hk
  have hkp : key ∉ s.pending := fun hp => h7 key hp hk
  refine ⟨?_, ?_, h3, List.Nodup.erase key h4, ?_, ?_, ?_⟩
  · simp only []
    omega
  · simp only [hklen]
    have : 1 ≤ s.fetching.length := List.length_pos.mpr (by
      intro hnil
      rw [hnil] at hk
      exact List.not_mem_nil key hk)
    omega
  · intro k hkpend
    have hne : k ≠ key := fun he => hkp (he ▸ hkpend)
    exact (List.mem_erase_of_ne hne).mpr (h5 k hkpend)
  · intro k hkf
    have hkmem := List.mem_of_mem_erase hkf
    have hne : k ≠ key := ((List.Nodup.mem_erase_iff h4).mp hkf).1
    exact (List.mem_erase_of_ne hne).mpr (h6 k hkmem)
  · intro k hkpend hkf
    exact h7 k hkpend (List.mem_of_mem_erase hkf)

theorem thumbInv_step (s : ThumbState) (e : ThumbEvent) (h : ThumbInv s) :
    ThumbInv (thumbStep s e) := by
  cases e with
  | request key visible => exact thumbInv_request s key visible h
  | finish key success =>
      rw [thumbStep]
      by_cases hk : key ∈ s.fetching
      · rw [if_pos hk]; exact thumbInv_finish s key success h hk
      · rw [if_neg hk]; exact h

theorem thumbInv_init : ThumbInv initThumb := by
  refine ⟨by simp [initThumb, MAX_CONCURRENT], rfl, List.nodup_nil, List.nodup_nil, ?_, ?_, ?_⟩
    <;> intro k hk <;> simp [initThumb] at hk

theorem thumbInv_run (evs : List ThumbEvent) : ThumbInv (thumbRun initThumb evs) := by
  suffices h : ∀ s, ThumbInv s → ThumbInv (thumbRun s evs) from h initThumb thumbInv_init
  induction evs with
  | nil => intro s hs; exact hs
  | cons e es ih =>
      intro s hs
      exact ih (thumbStep s e) (thumbInv_step s e hs)

theorem startNextThumb_one (s : ThumbState) (k : ThumbKey) (rest : List ThumbKey)
    (hp : s.pending = k :: rest) (ha : s.active + 1 = MAX_CONCURRENT) :
    startNextThumb s = { s with
      pending := rest,
      active := s.active + 1,
      fetching := s.fetching ++ [k],
      fetchCount := s.fetchCount + 1 } := by
  rw [startNextThumb_fields, hp]
  have hm : min (MAX_CONCURRENT - s.active) (k :: rest).length = 1 := by
    simp only [List.length_cons]
    omega
  rw [hm]
  rfl

theorem finish_at_cap (s : ThumbState) (k : ThumbKey) (success : Bool)
    (hk : k ∈ s.fetching) (ha : s.active = MAX_CONCURRENT) (hp : s.pending ≠ []) :
    (thumbStep s (ThumbEvent.finish k success)).active = MAX_CONCURRENT ∧
    (thumbStep s (ThumbEvent.finish k success)).fetchCount = s.fetchCount + 1 ∧
    (thumbStep s (ThumbEvent.finish k success)).pending = s.pending.tail := by
  have h32 : MAX_CONCURRENT = 32 := rfl
  obtain ⟨p, rest, hpl⟩ : ∃ p rest, s.pending = p :: rest := by
    cases hq : s.pending with
    | nil => exact absurd hq hp
    | cons a l => exact ⟨a, l, rfl⟩
  rw [thumbStep, if_pos hk, finishThumb,
    startNextThumb_one
      { s with
        cache := if success then k :: s.cache else s.cache,
        inflight := s.inflight.erase k,
        fetching := s.fetching.erase k,
        active := s.active - 1 }
      p rest hpl (show s.active - 1 + 1 = MAX_CONCURRENT by omega)]
  refine ⟨show s.active - 1 + 1 = MAX_CONCURRENT by omega, rfl, ?_⟩
  rw [hpl]
  rfl

/-- C8: the number of in-flight thumbnail fetches never exceeds the fixed
concurrency cap of 32 along any event trace from the initial scheduler
state, no matter how many distinct-key requests are enqueued; and a fetch
completion at the cap with a nonempty pending queue decrements the active
count and triggers exactly one dequeue, issuing exactly one new fetch and
removing exactly the queue head, keeping the pump self-sustaining. -/
theorem thumb_cap_invariant (evs : List ThumbEvent) :
    (thumbRun initThumb evs).active ≤ MAX_CONCURRENT ∧
    (thumbRun initThumb evs).fetching.length ≤ MAX_CONCURRENT ∧
    (∀ (k : ThumbKey) (success : Bool),
       k ∈ (thumbRun initThumb evs).fetching →
       (thumbRun initThumb evs).active = MAX_CONCURRENT →
       (thumbRun initThumb evs).pending ≠ [] →
       (thumbStep (thumbRun initThumb evs) (ThumbEvent.finish k success)).active
           = MAX_CONCURRENT ∧
       (thumbStep (thumbRun initThumb evs) (ThumbEvent.finish k success)).fetchCount
           = (thumbRun initThumb evs).fetchCount + 1 ∧
       (thumbStep (thumbRun initThumb evs) (ThumbEvent.finish k success)).pending
           = (thumbRun initThumb evs).pending.tail) := by
  obtain ⟨h1, h2, _⟩ := thumbInv_run evs
  exact ⟨h1, by omega, fun k success hk ha hp => finish_at_cap _ k success hk ha hp⟩

set_option maxRecDepth 8000 in
/-- C8 witness: thirty-three simultaneous distinct-key requests drive the
scheduler to exactly 32 in-flight fetches with one request left pending;
finishing one fetch keeps the active count at the cap, issues exactly one
new fetch, and dequeues exactly the pending head. -/
theorem thumb_cap_invariant_witness :
    (thumbRun initThumb thumbManyRequests).active ≤ MAX_CONCURRENT ∧
    (thumbStep (thumbRun initThumb thumbManyRequests)
        (ThumbEvent.finish ("p", 0, 64) true)).active = MAX_CONCURRENT ∧
    (thumbStep (thumbRun initThumb thumbManyRequests)
        (ThumbEvent.finish ("p", 0, 64) true)).fetchCount
      = (thumbRun initThumb thumbManyRequests).fetchCount + 1 ∧
    (thumbStep (thumbRun initThumb thumbManyRequests)
        (ThumbEvent.finish ("p", 0, 64) true)).pending
      = (thumbRun initThumb thumbManyRequests).pending.tail :=
  ⟨(thumb_cap_invariant thumbManyRequests).1,
   ((thumb_cap_invariant thumbManyRequests).2.2 ("p", 0, 64) true
      (by decide) (by decide) (by decide)).1,
   ((thumb_cap_invariant thumbManyRequests).2.2 ("p", 0, 64) true
      (by decide) (by decide) (by decide)).2.1,
   ((thumb_cap_invariant thumbManyRequests).2.2 ("p", 0, 64) true
      (by decide) (by decide) (by decide)).2.2⟩

/-- C6: thumbnail request deduplication.  A request whose key is cached or
already in-flight leaves the scheduler state unchanged (cache hits apply
the stored pixmap with no network fetch; in-flight keys are suppressed
entirely); along any trace each key occurs at most once across the pending
queue and the issued fetches; and two successive requests for the same
fresh key cause exactly one network fetch. -/
theorem thumb_dedup :
    (∀ (s : ThumbState) (key : ThumbKey) (visible : Bool),
       key ∈ s.cache ∨ key ∈ s.inflight → requestThumb s key visible = s) ∧
    (∀ evs : List ThumbEvent,
       ((thumbRun initThumb evs).pending ++ (thumbRun initThumb evs).fetching).Nodup) ∧
    (∀ (key : ThumbKey) (vis1 vis2 : Bool),
       (requestThumb (requestThumb initThumb key vis1) key vis2).fetchCount = 1 ∧
       (requestThumb (requestThumb initThumb key vis1) key vis2).fetching = [key]) := by
  refine ⟨?_, ?_, ?_⟩
  · intro s key visible hmem
    rw [requestThumb]
    by_cases hc : key ∈ s.cache
    · rw [if_pos hc]
    · rw [if_neg hc, if_pos (hmem.resolve_left hc)]
  · intro evs
    obtain ⟨_, _, h3, h4, _, _, h7⟩ := thumbInv_run evs
    exact List.nodup_append.mpr ⟨h3, h4, h7⟩
  · intro key vis1 vis2
    have hfirst : requestThumb initThumb key vis1 =
        { cache := [], inflight := [key], pending := [], active := 1,
          fetching := [key], fetchCount := 1 } := by
      cases vis1 <;> rfl
    rw [hfirst, requestThumb]
    rw [if_neg (List.not_mem_nil key), if_pos (List.mem_singleton_self key)]
    exact ⟨rfl, rfl⟩

/-- C6 witness: a request whose key sits in the completed cache leaves the
scheduler unchanged, and two successive requests for one fresh key issue
exactly one fetch. -/
theorem thumb_dedup_witness :
    requestThumb
      { cache := [("x.jpg", 64, 64)], inflight := [], pending := [], active := 0,
        fetching := [], fetchCount := 0 } ("x.jpg", 64, 64) true =
      { cache := [("x.jpg", 64, 64)], inflight := [], pending := [], active := 0,
        fetching := [], fetchCount := 0 } ∧
    (requestThumb (requestThumb initThumb ("x.jpg", 64, 64) true) ("x.jpg", 64, 64) true).fetchCount
      = 1 :=
  ⟨thumb_dedup.1
      { cache := [("x.jpg", 64, 64)], inflight := [], pending := [], active := 0,
        fetching := [], fetchCount := 0 } ("x.jpg", 64, 64) true (Or.inl (by decide)),
   (thumb_dedup.2.2 ("x.jpg", 64, 64) true true).1⟩

/-- C7: the pending queue is two-tier.  A fresh visible request is
inserted at the queue front and a fresh background request is appended at
the back; the dequeue always takes the queue front; hence with a pending
queue of two background requests followed by a visible request, the next
dequeued request is the visible one, not the first background one. -/
theorem thumb_priority :
    (∀ (s : ThumbState) (key : ThumbKey) (visible : Bool),
       key ∉ s.cache → key ∉ s.inflight → MAX_CONCURRENT ≤ s.active →
       (requestThumb s key visible).pending =
         (if visible then key :: s.pending else s.pending ++ [key])) ∧
    (∀ (s : ThumbState) (k : ThumbKey) (rest : List ThumbKey),
       s.pending = k :: rest → s.active < MAX_CONCURRENT →
       ∃ taken, (startNextThumb s).fetching = s.fetching ++ k :: taken) ∧
    (∀ (s : ThumbState) (bg1 bg2 vis1 kf : ThumbKey) (success : Bool),
       s.pending = [bg1, bg2] → s.active = MAX_CONCURRENT →
       vis1 ∉ s.cache → vis1 ∉ s.inflight → kf ∈ s.fetching →
       (thumbStep s (ThumbEvent.request vis1 true)).pending = [vis1, bg1, bg2] ∧
       (thumbStep (thumbStep s (ThumbEvent.request vis1 true))
           (ThumbEvent.finish kf success)).fetching =
         ((thumbStep s (ThumbEvent.request vis1 true)).fetching.erase kf) ++ [vis1] ∧
       (thumbStep (thumbStep s (ThumbEvent.request vis1 true))
           (ThumbEvent.finish kf success)).pending = [bg1, bg2]) := by
  refine ⟨?_, ?_, ?_⟩
  · intro s key visible hc hi ha
    rw [requestThumb, if_neg hc, if_neg hi,
      startNextThumb_at_cap
        { s with
          inflight := key :: s.inflight,
          pending := if visible then key :: s.pending else s.pending ++ [key] } ha]
  · intro s k rest hp ha
    rw [startNextThumb_fields, hp]
    have hm : ∃ t1, min (MAX_CONCURRENT - s.active) (k :: rest).length = t1 + 1 := by
      refine ⟨min (MAX_CONCURRENT - s.active) (k :: rest).length - 1, ?_⟩
      simp only [List.length_cons]
      omega
    obtain ⟨t1, ht1⟩ := hm
    rw [ht1]
    exact ⟨rest.take t1, by rw [List.take_succ_cons]⟩
  · intro s bg1 bg2 vis1 kf success hp ha hc hi hkf
    have h32 : MAX_CONCURRENT = 32 := rfl
    have hreq : thumbStep s (ThumbEvent.request vis1 true) =
        { s with inflight := vis1 :: s.inflight, pending := vis1 :: s.pending } := by
      show requestThumb s vis1 true = _
      rw [requestThumb, if_neg hc, if_neg hi]
      exact startNextThumb_at_cap _ (le_of_eq ha.symm)
    have hfin : thumbStep { s with inflight := vis1 :: s.inflight, pending := vis1 :: s.pending }
        (ThumbEvent.finish kf success) =
        { cache := if success then kf :: s.cache else s.cache,
          inflight := (vis1 :: s.inflight).erase kf,
          pending := s.pending,
          active := s.active - 1 + 1,
          fetching := s.fetching.erase kf ++ [vis1],
          fetchCount := s.fetchCount + 1 } := by
      rw [thumbStep, if_pos hkf, finishThumb,
        startNextThumb_one _ vis1 s.pending rfl
          (show s.active - 1 + 1 = MAX_CONCURRENT by omega)]
    rw [hreq, hfin, hp]
    exact ⟨rfl, rfl, rfl⟩

/-- C7 witness: with two background keys pending, a full active pool, and
one fetch in flight, a fresh visible request lands at the queue front and
the next completion dequeues it, not the first background key. -/
theorem thumb_priority_witness :
    (thumbStep
      { cache := [], inflight := [], pending := [("bg1", 64, 64), ("bg2", 64, 64)],
        active := 32, fetching := [("kf", 64, 64)], fetchCount := 5 }
      (ThumbEvent.request ("vis1", 64, 64) true)).pending =
      [("vis1", 64, 64), ("bg1", 64, 64), ("bg2", 64, 64)] ∧
    (thumbStep (thumbStep
      { cache := [], inflight := [], pending := [("bg1", 64, 64), ("bg2", 64, 64)],
        active := 32, fetching := [("kf", 64, 64)], fetchCount := 5 }
      (ThumbEvent.request ("vis1", 64, 64) true))
      (ThumbEvent.finish ("kf", 64, 64) true)).fetching =
      (((thumbStep
      { cache := [], inflight := [], pending := [("bg1", 64, 64), ("bg2", 64, 64)],
        active := 32, fetching := [("kf", 64, 64)], fetchCount := 5 }
      (ThumbEvent.request ("vis1", 64, 64) true)).fetching.erase ("kf", 64, 64)) ++
        [("vis1", 64, 64)]) :=
  ⟨((thumb_priority.2.2
      { cache := [], inflight := [], pending := [("bg1", 64, 64), ("bg2", 64, 64)],
        active := 32, fetching := [("kf", 64, 64)], fetchCount := 5 }
      ("bg1", 64, 64) ("bg2", 64, 64) ("vis1", 64, 64) ("kf", 64, 64) true
      rfl rfl (by decide) (by decide) (by decide))).1,
   ((thumb_priority.2.2
      { cache := [], inflight := [], pending := [("bg1", 64, 64), ("bg2", 64, 64)],
        active := 32, fetching := [("kf", 64, 64)], fetchCount := 5 }
      ("bg1", 64, 64) ("bg2", 64, 64) ("vis1", 64, 64) ("kf", 64, 64) true
      rfl rfl (by decide) (by decide) (by decide))).2.1⟩

/-- C3: the load-more path is broken in the source.  No method named
_load_more_items is defined on BrowserWidget although both scroll handlers
call it: crossing the 80 percent threshold in the table view with more
items available raises AttributeError instead of starting a new session,
and the icon-view handler, which absorbed the orphaned body of the lost
method, starts a 100-item session at offset len(_all_loaded_items) on any
scroll position whenever loading is idle and incomplete, threshold or
not. -/
theorem load_more_items_missing :
    ("_load_more_items" ∈ browserWidgetMethods → False) ∧
    onTableScroll true false 9 10 = ScrollOutcome.attrError "_load_more_items" ∧
    onIconScroll true false false 9 10 100 = ScrollOutcome.attrError "_load_more_items" ∧
    (∀ accumulated : Nat,
       onIconScroll true false false 0 10 accumulated = ScrollOutcome.loadMore accumulated 100) := by
  refine ⟨by decide, by decide, by decide, fun accumulated => rfl⟩

theorem charListLt_irrefl : ∀ xs : List Char, charListLt xs xs = false := by
  intro xs
  induction xs with
  | nil => rfl
  | cons c cs ih => simp [charListLt, ih]

theorem charListLt_asymm : ∀ xs ys : List Char,
    charListLt xs ys = true → charListLt ys xs = false := by
  intro xs
  induction xs with
  | nil =>
      intro ys h
      cases ys with
      | nil => rfl
      | cons d ds => rfl
  | cons c cs ih =>
      intro ys h
      cases ys with
      | nil => simp [charListLt] at h
      | cons d ds =>
          rw [charListLt] at h
          rw [charListLt]
          by_cases h1 : c.toNat < d.toNat
          · rw [if_pos h1] at h
            rw [if_neg (by omega), if_pos h1]
          · rw [if_neg h1] at h
            by_cases h2 : d.toNat < c.toNat
            · rw [if_pos h2] at h
              exact absurd h (by simp)
            · rw [if_neg h2] at h
              rw [if_neg h2, if_neg h1]
              exact ih ds h

theorem charListLt_trans : ∀ xs ys zs : List Char,
    charListLt xs ys = true → charListLt ys zs = true → charListLt xs zs = true := by
  intro xs
  induction xs with
  | nil =>
      intro ys zs h1 h2
      cases ys with
      | nil => exact h2
      | cons d ds =>
          cases zs with
          | nil => simp [charListLt] at h2
          | cons e es => rfl
  | cons c cs ih =>
      intro ys zs h1 h2
      cases ys with
      | nil => simp [charListLt] at h1
      | cons d ds =>
          cases zs with
          | nil => simp [charListLt] at h2
          | cons e es =>
              rw [charListLt] at h1 h2
              rw [charListLt]
              by_cases hcd : c.toNat < d.toNat
              · rw [if_pos hcd] at h1
                by_cases hde : d.toNat < e.toNat
                · rw [if_pos (by omega)]
                · rw [if_neg hde] at h2
                  by_cases hed : e.toNat < d.toNat
                  · rw [if_pos hed] at h2
                    exact absurd h2 (by simp)
                  · rw [if_pos (by omega)]
              · rw [if_neg hcd] at h1
                by_cases hdc : d.toNat < c.toNat
                · rw [if_pos hdc] at h1
                  exact absurd h1 (by simp)
                · rw [if_neg hdc] at h1
                  by_cases hde : d.toNat < e.toNat
                  · rw [if_pos (by omega)]
                  · rw [if_neg hde] at h2
                    by_cases hed : e.toNat < d.toNat
                    · rw [if_pos hed] at h2
                      exact absurd h2 (by simp)
                    · rw [if_neg hed] at h2
                      rw [if_neg (by omega), if_neg (by omega)]
                      exact ih ds es h1 h2

theorem charListLt_conn : ∀ xs ys : List Char,
    charListLt xs ys = false → charListLt ys xs = false → xs = ys := by
  intro xs
  induction xs with
  | nil =>
      intro ys h1 h2
      cases ys with
      | nil => rfl
      | cons d ds => simp [charListLt] at h1
  | cons c cs ih =>
      intro ys h1 h2
      cases ys with
      | nil => simp [charListLt] at h2
      | cons d ds =>
          rw [charListLt] at h1 h2
          by_cases hcd : c.toNat < d.toNat
          · rw [if_pos hcd] at h1
            exact absurd h1 (by simp)
          · by_cases hdc : d.toNat < c.toNat
            · rw [if_pos hdc] at h2
              exact absurd h2 (by simp)
            · rw [if_neg hcd, if_neg hdc] at h1
              rw [if_neg hdc, if_neg hcd] at h2
              have hval : c.val.toNat = d.val.toNat := by
                simp only [Char.toNat] at hcd hdc
                omega
              have hc : c = d := Char.eq_of_val_eq (UInt32.toNat.inj hval)
              rw [hc, ih ds h1 h2]

theorem string_data_inj (a b : String) (h : a.data = b.data) : a = b := by
  cases a
  cases b
  exact congrArg String.mk h

theorem strLe_total (a b : String) : (strLe a b || strLe b a) = true := by
  simp only [strLe, strLt]
  by_cases h : charListLt b.data a.data = true
  · rw [charListLt_asymm b.data a.data h]
    simp [h]
  · simp [h]

theorem charListLe_trans : ∀ xs ys zs : List Char,
    charListLt ys xs = false → charListLt zs ys = false → charListLt zs xs = false := by
  intro xs
  induction xs with
  | nil =>
      intro ys zs h1 h2
      cases zs with
      | nil => rfl
      | cons e es => rfl
  | cons c cs ih =>
      intro ys zs h1 h2
      cases ys with
      | nil => simp [charListLt] at h1
      | cons d ds =>
          cases zs with
          | nil => simp [charListLt] at h2
          | cons e es =>
              rw [charListLt] at h1 h2
              rw [charListLt]
              by_cases hdc : d.toNat < c.toNat
              · rw [if_pos hdc] at h1
                exact absurd h1 (by simp)
              · rw [if_neg hdc] at h1
                by_cases hed : e.toNat < d.toNat
                · rw [if_pos hed] at h2
                  exact absurd h2 (by simp)
                · rw [if_neg hed] at h2
                  by_cases hcd : c.toNat < d.toNat
                  · rw [if_neg (by omega), if_pos (by omega)]
                  · rw [if_neg hcd] at h1
                    by_cases hde : d.toNat < e.toNat
                    · rw [if_neg (by omega), if_pos (by omega)]
                    · rw [if_neg hde] at h2
                      rw [if_neg (by omega)]
                      by_cases hce : c.toNat < e.toNat
                      · rw [if_pos hce]
                      · rw [if_neg hce]
                        exact ih ds es h1 h2

theorem strLe_trans (a b c : String) :
    strLe a b = true → strLe b c = true → strLe a c = true := by
  simp only [strLe, strLt, Bool.not_eq_true']
  exact charListLe_trans a.data b.data c.data

theorem strLt_or_eq_of_not_lt (a b : String) (h : strLt b a = false) :
    strLt a b = true ∨ a = b := by
  by_cases h2 : strLt a b = true
  · exact Or.inl h2
  · refine Or.inr (string_data_inj a b ?_)
    rw [strLt] at h h2
    exact charListLt_conn a.data b.data (by simpa using h2) h

theorem getSortKey_name_eq (it : Item) :
    getSortKey "name" it = SortKey.str (pyLower (it.name?.getD "")) := rfl

theorem getSortKey_date_eq (it : Item) :
    getSortKey "date" it = SortKey.int (it.lastModified?.getD 0) := rfl

theorem getSortKey_size_eq (it : Item) :
    getSortKey "size" it =
      (if it.type? == some "dir" then SortKey.int (-1)
       else SortKey.int (it.size?.getD 0)) := rfl

theorem getSortKey_type_eq (it : Item) :
    getSortKey "type" it =
      SortKey.pair (it.type?.getD "file") (pyLower (it.name?.getD "")) := rfl

theorem getSortKey_size_int (it : Item) : ∃ n, getSortKey "size" it = SortKey.int n := by
  rw [getSortKey_size_eq]
  by_cases h : (it.type? == some "dir") = true
  · rw [if_pos h]
    exact ⟨-1, rfl⟩
  · rw [if_neg h]
    exact ⟨it.size?.getD 0, rfl⟩

theorem sortKeyLe_refl (x : SortKey) : sortKeyLe x x = true := by
  cases x with
  | str s =>
      show strLe s s = true
      rw [strLe, strLt, charListLt_irrefl]
      rfl
  | int n =>
      simp only [sortKeyLe, decide_eq_true_eq]
      omega
  | pair t n =>
      show (strLt t t || (t == t && strLe n n)) = true
      simp only [strLt, strLe, charListLt_irrefl, beq_self_eq_true, Bool.true_and,
        Bool.false_or, Bool.not_false]

theorem sortKeyLe_str_total (a b : String) :
    (sortKeyLe (SortKey.str a) (SortKey.str b) ||
     sortKeyLe (SortKey.str b) (SortKey.str a)) = true :=
  strLe_total a b

theorem sortKeyLe_int_total (a b : Int) :
    (sortKeyLe (SortKey.int a) (SortKey.int b) ||
     sortKeyLe (SortKey.int b) (SortKey.int a)) = true := by
  simp only [sortKeyLe, Bool.or_eq_true, decide_eq_true_eq]
  omega

theorem sortKeyLe_pair_total (t1 n1 t2 n2 : String) :
    (sortKeyLe (SortKey.pair t1 n1) (SortKey.pair t2 n2) ||
     sortKeyLe (SortKey.pair t2 n2) (SortKey.pair t1 n1)) = true := by
  show ((strLt t1 t2 || (t1 == t2 && strLe n1 n2)) ||
      (strLt t2 t1 || (t2 == t1 && strLe n2 n1))) = true
  by_cases h1 : strLt t1 t2 = true
  · rw [h1]
    rfl
  · rcases strLt_or_eq_of_not_lt t2 t1 (by simpa using h1) with h2 | h2
    · rw [h2]
      simp
    · subst h2
      simp only [strLt, strLe, charListLt_irrefl, beq_self_eq_true, Bool.true_and,
        Bool.false_or, Bool.not_eq_true']
      by_cases hn : charListLt n2.data n1.data = true
      · have := charListLt_asymm n2.data n1.data hn
        rw [this]
        simp
      · simp [hn]

theorem sortKeyLe_str_trans (a b c : String) :
    sortKeyLe (SortKey.str a) (SortKey.str b) = true →
    sortKeyLe (SortKey.str b) (SortKey.str c) = true →
    sortKeyLe (SortKey.str a) (SortKey.str c) = true :=
  strLe_trans a b c

theorem sortKeyLe_int_trans (a b c : Int) :
    sortKeyLe (SortKey.int a) (SortKey.int b) = true →
    sortKeyLe (SortKey.int b) (SortKey.int c) = true →
    sortKeyLe (SortKey.int a) (SortKey.int c) = true := by
  simp only [sortKeyLe, decide_eq_true_eq]
  omega

theorem sortKeyLe_pair_trans (t1 n1 t2 n2 t3 n3 : String) :
    sortKeyLe (SortKey.pair t1 n1) (SortKey.pair t2 n2) = true →
    sortKeyLe (SortKey.pair t2 n2) (SortKey.pair t3 n3) = true →
    sortKeyLe (SortKey.pair t1 n1) (SortKey.pair t3 n3) = true := by
  show (strLt t1 t2 || (t1 == t2 && strLe n1 n2)) = true →
      (strLt t2 t3 || (t2 == t3 && strLe n2 n3)) = true →
      (strLt t1 t3 || (t1 == t3 && strLe n1 n3)) = true
  intro h1 h2
  rw [Bool.or_eq_true] at h1 h2
  rcases h1 with hl1 | hr1
  · rcases h2 with hl2 | hr2
    · have hlt : strLt t1 t3 = true := by
        rw [strLt] at hl1 hl2 ⊢
        exact charListLt_trans _ _ _ hl1 hl2
      rw [hlt]
      rfl
    · rw [Bool.and_eq_true] at hr2
      have he : t2 = t3 := eq_of_beq hr2.1
      rw [← he, hl1]
      rfl
  · rw [Bool.and_eq_true] at hr1
    obtain ⟨hbeq1, hle1⟩ := hr1
    have he1 : t1 = t2 := eq_of_beq hbeq1
    rcases h2 with hl2 | hr2
    · rw [he1, hl2]
      rfl
    · rw [Bool.and_eq_true] at hr2
      obtain ⟨hbeq2, hle2⟩ := hr2
      have he2 : t2 = t3 := eq_of_beq hbeq2
      have hle : strLe n1 n3 = true := strLe_trans n1 n2 n3 hle1 hle2
      rw [he1.trans he2, hle]
      simp [strLt, charListLt_irrefl]

theorem itemLe_total (f : String) (hf : f ∈ (["name", "date", "size", "type"] : List String))
    (a b : Item) : (itemLe f a b || itemLe f b a) = true := by
  simp only [List.mem_cons, List.not_mem_nil, or_false] at hf
  rcases hf with rfl | rfl | rfl | rfl
  · simp only [itemLe, getSortKey_name_eq]
    exact sortKeyLe_str_total _ _
  · simp only [itemLe, getSortKey_date_eq]
    exact sortKeyLe_int_total _ _
  · obtain ⟨na, hna⟩ := getSortKey_size_int a
    obtain ⟨nb, hnb⟩ := getSortKey_size_int b
    simp only [itemLe, hna, hnb]
    exact sortKeyLe_int_total _ _
  · simp only [itemLe, getSortKey_type_eq]
    exact sortKeyLe_pair_total _ _ _ _

theorem itemLe_trans (f : String) (hf : f ∈ (["name", "date", "size", "type"] : List String))
    (a b c : Item) :
    itemLe f a b = true → itemLe f b c = true → itemLe f a c = true := by
  simp only [List.mem_cons, List.not_mem_nil, or_false] at hf
  rcases hf with rfl | rfl | rfl | rfl
  · simp only [itemLe, getSortKey_name_eq]
    exact sortKeyLe_str_trans _ _ _
  · simp only [itemLe, getSortKey_date_eq]
    exact sortKeyLe_int_trans _ _ _
  · obtain ⟨na, hna⟩ := getSortKey_size_int a
    obtain ⟨nb, hnb⟩ := getSortKey_size_int b
    obtain ⟨nc, hnc⟩ := getSortKey_size_int c
    simp only [itemLe, hna, hnb, hnc]
    exact sortKeyLe_int_trans _ _ _
  · simp only [itemLe, getSortKey_type_eq]
    exact sortKeyLe_pair_trans _ _ _ _ _ _

theorem itemLe_of_key_eq (f : String) (a b : Item)
    (h : getSortKey f a = getSortKey f b) : itemLe f a b = true := by
  rw [itemLe, h]
  exact sortKeyLe_refl _

unseal List.merge List.mergeSort in
/-- C5: the ascending sort orders by the field's key (name:
case-insensitive string; date: numeric lastModified with missing treated
as 0; size: directories get sentinel -1 below any file, files numeric size
with missing treated as 0; type: directories before files then
case-insensitive name), is a permutation of the input, and is stable
(pairs with equal keys keep their arrival order); in particular sorting
the two-element example by type ascending and by size ascending both keep
the directory named b before the file named a. -/
theorem sort_items_spec (items : List Item) (f : String)
    (hf : f ∈ (["name", "date", "size", "type"] : List String)) :
    (sortItems f true items).Perm items ∧
    List.Pairwise (fun a b => itemLe f a b = true) (sortItems f true items) ∧
    (∀ a b : Item, List.Sublist [a, b] items → getSortKey f a = getSortKey f b →
       List.Sublist [a, b] (sortItems f true items)) ∧
    (∀ it : Item, it.type? = some "dir" → getSortKey "size" it = SortKey.int (-1)) ∧
    (∀ it : Item, it.type? ≠ some "dir" → it.size? = none →
       getSortKey "size" it = SortKey.int 0) ∧
    (∀ it : Item, it.lastModified? = none → getSortKey "date" it = SortKey.int 0) ∧
    (∀ it : Item, getSortKey "name" it = SortKey.str (pyLower (it.name?.getD ""))) ∧
    sortItems "type" true [bDirItem, aFileItem] = [bDirItem, aFileItem] ∧
    sortItems "size" true [bDirItem, aFileItem] = [bDirItem, aFileItem] := by
  have htrans : ∀ a b c : Item, itemLe f a b → itemLe f b c → itemLe f a c :=
    itemLe_trans f hf
  have htotal : ∀ a b : Item, itemLe f a b || itemLe f b a :=
    itemLe_total f hf
  refine ⟨?_, ?_, ?_, ?_, ?_, ?_, ?_, ?_, ?_⟩
  · rw [sortItems, if_pos rfl]
    exact List.mergeSort_perm items _
  · rw [sortItems, if_pos rfl]
    exact List.sorted_mergeSort htrans htotal items
  · intro a b hsub hkey
    rw [sortItems, if_pos rfl]
    exact List.pair_sublist_mergeSort htrans htotal (itemLe_of_key_eq f a b hkey) hsub
  · intro it h
    rw [getSortKey_size_eq, h]
    rfl
  · intro it h hs
    rw [getSortKey_size_eq, hs, if_neg (by simpa using h)]
    rfl
  · intro it h
    rw [getSortKey_date_eq, h]
    rfl
  · intro it
    exact getSortKey_name_eq it
  · rfl
  · rfl

/-- C5 witness: the two sort examples evaluate as the claim states, and a
repeated equal-key pair keeps its arrival order. -/
theorem sort_items_spec_witness :
    sortItems "type" true [bDirItem, aFileItem] = [bDirItem, aFileItem] ∧
    sortItems "size" true [bDirItem, aFileItem] = [bDirItem, aFileItem] ∧
    List.Sublist [itemA, itemA] (sortItems "name" true [itemA, itemA]) :=
  ⟨(sort_items_spec [bDirItem, aFileItem] "type" (by decide)).2.2.2.2.2.2.2.1,
   (sort_items_spec [bDirItem, aFileItem] "type" (by decide)).2.2.2.2.2.2.2.2,
   (sort_items_spec [itemA, itemA] "name" (by decide)).2.2.1 itemA itemA
     (List.Sublist.refl [itemA, itemA]) rfl⟩

end Stremer
